import Mathlib

/-!
Shallow embedding of the two algorithmic utilities of
`src/solarnet/utils/ml.py`: `compute_class_weights` (lines 55-65) and
`find_best_checkpoint` (lines 130-148).

Numbers: Python performs exact integer arithmetic and IEEE-754 double
arithmetic; the embedding works over `ℚ`.  On every concrete input used
below the double computations of the source are exact (dyadic ratios such
as 9/8, and small decimal literals), so the `ℚ` model agrees with the
source there.  Python's built-in `round(x, 2)` rounds to the nearest
multiple of 1/100, ties to the even multiple; `np.clip(x, 0, clip)` is
`min clip (max x 0)` (the upper bound is applied last).

Mutation: the Python function mutates its argument dict (`data[k] += ...`),
so the embedding returns a pair (final state of `data`, result).  Exceptions
(AssertionError, ValueError from `max([])`, ZeroDivisionError) are modelled
by the `Except` error component.  The smoothing assertion and the
`max`-of-empty error fire before the mutating loop, so in those cases the
state component is the unchanged input.

A dict with its insertion order is an association list `List (α × ℚ)`;
file paths and strings are `List Char`.
-/

/-- Error outcomes of `compute_class_weights`:
`smoothingOutOfRange` models the failed `assert` on `smoothing`;
`emptyCounts` models the `ValueError` of `max` applied to an empty dict;
`divisionByZero` models the `ZeroDivisionError` of `majority / v`. -/
inductive WErr where
  | smoothingOutOfRange
  | emptyCounts
  | divisionByZero
deriving DecidableEq, Repr

/-- Round-half-even to the nearest integer: the rounding performed by
Python's built-in `round` on an exactly representable value. -/
def rhe (x : ℚ) : ℤ :=
  if x - ⌊x⌋ < 1/2 then ⌊x⌋
  else if 1/2 < x - ⌊x⌋ then ⌊x⌋ + 1
  else if ⌊x⌋ % 2 = 0 then ⌊x⌋ else ⌊x⌋ + 1

/-- Python's `round(x, ndigits=2)`: round to the nearest multiple of 1/100,
ties to even. -/
def round2 (x : ℚ) : ℚ := (rhe (100 * x) : ℚ) / 100

/-- numpy's `np.clip(x, lo, hi) = min(hi, max(x, lo))`: the upper bound is
applied after the lower bound. -/
def pyclip (x lo hi : ℚ) : ℚ := min hi (max x lo)

/-- Python's `max` over the values of an association list (the dict's
`.values()` in insertion order); `none` models the `ValueError` on an empty
sequence. -/
def maxVal? {α : Type} : List (α × ℚ) → Option ℚ
  | [] => none
  | p :: t => some (t.foldl (fun m q => max m q.2) p.2)

/-- Embeds lines 63-65 of `compute_class_weights`: take the majority (max)
value, divide it by each count, round to 2 digits and clip to `[0, clip]`;
`divisionByZero` models the `ZeroDivisionError` raised when some value is 0. -/
def weightsOf {α : Type} (d : List (α × ℚ)) (clip : ℚ) : Except WErr (List (α × ℚ)) :=
  match maxVal? d with
  | none => .error .emptyCounts
  | some majority =>
    if ∃ p ∈ d, p.2 = 0 then .error .divisionByZero
    else .ok (d.map (fun p => (p.1, pyclip (round2 (majority / p.2)) 0 clip)))

/-- Embedding of `compute_class_weights(data, smoothing=0.15, clip=10.0)`
(src/solarnet/utils/ml.py lines 55-65; the source defaults are
smoothing = 3/20 and clip = 10).  The first component of the result is the
final state of the caller's `data` dict (the source mutates it in place
when `smoothing > 0`); the second is the returned weights or the raised
error. -/
def compute_class_weights {α : Type} (data : List (α × ℚ)) (smoothing clip : ℚ) :
    List (α × ℚ) × Except WErr (List (α × ℚ)) :=
  if ¬ (0 ≤ smoothing ∧ smoothing ≤ 1) then (data, .error .smoothingOutOfRange)
  else if 0 < smoothing then
    match maxVal? data with
    | none => (data, .error .emptyCounts)
    | some m =>
      let d := data.map (fun p => (p.1, p.2 + m * smoothing))
      (d, weightsOf d clip)
  else (data, weightsOf data clip)

/-- The state of the `data` dict after the smoothing loop: unchanged when
`smoothing ≤ 0` or when `data` is empty (the error fires before the loop),
otherwise every count is increased by `max * smoothing`. -/
def smoothedData {α : Type} (d : List (α × ℚ)) (s : ℚ) : List (α × ℚ) :=
  if 0 < s then
    match maxVal? d with
    | none => d
    | some m => d.map (fun p => (p.1, p.2 + m * s))
  else d

/-- Error outcomes of `find_best_checkpoint`:
`noModels` models the failed `assert len(models) > 0`;
`malformedName` models the `ValueError` of tuple unpacking when the split
does not have 2 or 3 components;
`unknownModelType` models the failed `assert` on the model type;
`floatParse` models the `ValueError` of `float(...)` on an unparsable
metric string. -/
inductive FErr where
  | noModels
  | malformedName
  | unknownModelType
  | floatParse
deriving DecidableEq, Repr

deriving instance DecidableEq for Except

/-- Python's `model_name.replace(".pth", "")`: delete every occurrence of
the substring ".pth" in a single left-to-right pass. -/
def stripPth : List Char → List Char
  | '.' :: 'p' :: 't' :: 'h' :: rest => stripPth rest
  | c :: rest => c :: stripPth rest
  | [] => []

/-- True when the string contains the substring ".pth". -/
def hasPth : List Char → Bool
  | '.' :: 'p' :: 't' :: 'h' :: _ => true
  | _ :: rest => hasPth rest
  | [] => false

/-- Python's `str.split(sep)` for a single-character separator: splits at
every occurrence, keeping empty components; the result is never empty. -/
def splitOn (sep : Char) : List Char → List (List Char)
  | [] => [[]]
  | c :: rest =>
    if c = sep then [] :: splitOn sep rest
    else
      match splitOn sep rest with
      | h :: t => (c :: h) :: t
      | [] => [[c]]

/-- Python's `os.path.basename`: the part of the path after the last
slash. -/
def basename (s : List Char) : List Char := (splitOn '/' s).getLastD []

/-- Digit string to natural number, as positional decimal. -/
def digitsToNat (l : List Char) : ℕ := l.foldl (fun a c => 10 * a + (c.toNat - 48)) 0

/-- Model of Python's `float(str)` restricted to the unsigned decimal
literals of the checkpoint naming convention: an optional integer part, at
most one dot and an optional fractional part, at least one digit, no other
characters.  (Python's `float` also accepts signs, exponents, `inf`/`nan`
and surrounding whitespace; none of those can reach this call site with a
value the claims exercise, because the parsed slice is the suffix after
the last `-`.)  `none` models the `ValueError`. -/
def parseFloat? (s : List Char) : Option ℚ :=
  if (∃ c ∈ s, c.isDigit = true) ∧ (∀ c ∈ s, c.isDigit = true ∨ c = '.') then
    match splitOn '.' s with
    | [ip] => some (digitsToNat ip : ℚ)
    | [ip, fp] => some ((digitsToNat ip : ℚ) + (digitsToNat fp : ℚ) / 10 ^ fp.length)
    | _ => none
  else none

/-- Embeds the tuple unpacking of lines 138-141: for more than 2
components Python runs `mtype, _, metric_str = components`, which succeeds
only for exactly 3; otherwise `mtype, metric_str = components`, which
succeeds only for exactly 2.  `none` models the unpacking `ValueError`. -/
def unpackComponents (comps : List (List Char)) : Option (List Char × List Char) :=
  if comps.length > 2 then
    match comps with
    | [a, _, c] => some (a, c)
    | _ => none
  else
    match comps with
    | [a, b] => some (a, b)
    | _ => none

/-- Embeds the per-candidate body of the loop of `find_best_checkpoint`
(lines 137-143): strip ".pth", split on the divider `_`, unpack into
(model_type, metric_string), validate the model type, then parse the
metric as the float suffix of the metric string after its last `-`. -/
def parseMetric (path : List Char) : Except FErr ℚ :=
  match unpackComponents (splitOn '_' (stripPth (basename path))) with
  | none => .error .malformedName
  | some (mtype, metricStr) =>
    if mtype = ("classifier").data ∨ mtype = ("segmenter").data then
      match parseFloat? ((splitOn '-' metricStr).getLastD []) with
      | some v => .ok v
      | none => .error .floatParse
    else .error .unknownModelType

/-- One iteration of the loop of `find_best_checkpoint`: replace the
current best when `not current_best_metric or current_best_metric <
model_metric` — note that a stored metric equal to 0.0 is falsy in Python,
so it is treated like "no best yet". -/
def updateBest (best : Option (List Char × ℚ)) (q : List Char × ℚ) :
    Option (List Char × ℚ) :=
  match best with
  | none => some q
  | some b => if b.2 = 0 ∨ b.2 < q.2 then some q else best

/-- The loop of `find_best_checkpoint` over the candidate paths, carrying
`(current_best, current_best_metric)`. -/
def bestLoop : List (List Char) → Option (List Char × ℚ) → Except FErr (Option (List Char))
  | [], best => .ok (Option.map Prod.fst best)
  | p :: rest, best =>
    match parseMetric p with
    | .error e => .error e
    | .ok m => bestLoop rest (updateBest best (p, m))

/-- Embedding of `find_best_checkpoint` (src/solarnet/utils/ml.py lines
130-148) applied to the list of paths produced by the glob, in encounter
order.  The directory listing itself is an external effect and is not
modelled; the function takes the candidate paths directly. -/
def find_best (paths : List (List Char)) : Except FErr (Option (List Char)) :=
  if paths.isEmpty then .error .noModels else bestLoop paths none

/-- Parses every candidate, stopping at the first failing one — the error
behaviour of the loop of `find_best_checkpoint`. -/
def parseAll : List (List Char) → Except FErr (List (List Char × ℚ))
  | [] => .ok []
  | p :: rest =>
    match parseMetric p with
    | .error e => .error e
    | .ok m =>
      match parseAll rest with
      | .error e => .error e
      | .ok l => .ok ((p, m) :: l)

/-- Reference selection rule (to compare `find_best` against): among the
parsed candidates, if the maximum metric is nonzero, the first candidate
attaining it; if the maximum metric is zero, the last candidate. -/
def specSelect (l : List (List Char × ℚ)) : Option (List Char × ℚ) :=
  match maxVal? l with
  | none => none
  | some M => if M = 0 then l.getLast? else l.find? (fun q => decide (q.2 = M))

/-! ### The folded maximum -/

theorem foldl_max_le_iff {α : Type} (t : List (α × ℚ)) (a x : ℚ) :
    t.foldl (fun m q => max m q.2) a ≤ x ↔ a ≤ x ∧ ∀ q ∈ t, q.2 ≤ x := by
  induction t generalizing a with
  | nil => simp
  | cons q t ih =>
    simp [List.foldl_cons, ih, max_le_iff, and_assoc, List.forall_mem_cons]

theorem le_foldl_max {α : Type} (t : List (α × ℚ)) (a : ℚ) :
    a ≤ t.foldl (fun m q => max m q.2) a ∧
      ∀ q ∈ t, q.2 ≤ t.foldl (fun m q => max m q.2) a :=
  (foldl_max_le_iff t a _).mp le_rfl

theorem foldl_max_attained {α : Type} (t : List (α × ℚ)) (a : ℚ) :
    t.foldl (fun m q => max m q.2) a = a ∨
      ∃ q ∈ t, t.foldl (fun m q => max m q.2) a = q.2 := by
  induction t generalizing a with
  | nil => simp
  | cons q t ih =>
    rcases ih (max a q.2) with h | ⟨r, hr, h⟩
    · rcases max_choice a q.2 with hm | hm
      · left; rw [List.foldl_cons, h, hm]
      · right; exact ⟨q, List.mem_cons_self q t, by rw [List.foldl_cons, h, hm]⟩
    · right; exact ⟨r, List.mem_cons_of_mem _ hr, by rw [List.foldl_cons, h]⟩

theorem maxVal?_eq_none_iff {α : Type} (l : List (α × ℚ)) :
    maxVal? l = none ↔ l = [] := by
  cases l <;> simp [maxVal?]

theorem maxVal?_le {α : Type} {l : List (α × ℚ)} {m : ℚ} (h : maxVal? l = some m) :
    ∀ q ∈ l, q.2 ≤ m := by
  cases l with
  | nil => simp [maxVal?] at h
  | cons p t =>
    simp only [maxVal?, Option.some.injEq] at h
    subst h
    intro q hq
    rcases List.mem_cons.mp hq with rfl | hq
    · exact (le_foldl_max t q.2).1
    · exact (le_foldl_max t p.2).2 q hq

theorem maxVal?_attained {α : Type} {l : List (α × ℚ)} {m : ℚ}
    (h : maxVal? l = some m) : ∃ q ∈ l, q.2 = m := by
  cases l with
  | nil => simp [maxVal?] at h
  | cons p t =>
    simp only [maxVal?, Option.some.injEq] at h
    rcases foldl_max_attained t p.2 with h2 | ⟨r, hr, h2⟩
    · exact ⟨p, List.mem_cons_self p t, by rw [← h2, h]⟩
    · exact ⟨r, List.mem_cons_of_mem _ hr, by rw [← h2, h]⟩

theorem maxVal?_eq_some {α : Type} {l : List (α × ℚ)} {m : ℚ} (hne : l ≠ [])
    (hub : ∀ q ∈ l, q.2 ≤ m) (hat : ∃ q ∈ l, q.2 = m) : maxVal? l = some m := by
  cases l with
  | nil => exact absurd rfl hne
  | cons p t =>
    have hm0 : maxVal? (p :: t) = some (t.foldl (fun m q => max m q.2) p.2) := rfl
    rw [hm0]
    have h1 := maxVal?_le hm0
    obtain ⟨q, hq, hq2⟩ := maxVal?_attained hm0
    obtain ⟨r, hr, hr2⟩ := hat
    have hle : t.foldl (fun m q => max m q.2) p.2 ≤ m := by
      rw [← hq2]; exact hub q hq
    have hge : m ≤ t.foldl (fun m q => max m q.2) p.2 := by
      rw [← hr2]; exact h1 r hr
    rw [le_antisymm hle hge]

theorem foldl_max_map_add {α : Type} (t : List (α × ℚ)) (a c : ℚ) :
    (t.map (fun p => (p.1, p.2 + c))).foldl (fun m q => max m q.2) (a + c)
      = t.foldl (fun m q => max m q.2) a + c := by
  induction t generalizing a with
  | nil => simp
  | cons q t ih =>
    simp only [List.map_cons, List.foldl_cons]
    rw [max_add_add_right, ih]

theorem maxVal?_map_add {α : Type} (l : List (α × ℚ)) (c : ℚ) :
    maxVal? (l.map (fun p => (p.1, p.2 + c))) = (maxVal? l).map (fun m => m + c) := by
  cases l with
  | nil => simp [maxVal?]
  | cons p t => simp [maxVal?, foldl_max_map_add]

theorem mem_set_of_ne {α : Type} {l : List α} {q : α} {i : ℕ} (a : α) (hq : q ∈ l)
    (hi : i < l.length) (hne : q ≠ l[i]) : q ∈ l.set i a := by
  obtain ⟨n, hn, hget⟩ := List.mem_iff_getElem.mp hq
  have hni : i ≠ n := by
    intro h; subst h; exact hne hget.symm
  refine List.mem_iff_getElem.mpr ⟨n, by simpa using hn, ?_⟩
  rw [List.getElem_set_ne hni]
  exact hget

theorem maxVal?_set {α : Type} {l : List (α × ℚ)} {i : ℕ} (hi : i < l.length)
    {M c' : ℚ} (hM : maxVal? l = some M) (hc : l[i].2 ≤ c') (k : α) :
    maxVal? (l.set i (k, c')) = some (max M c') := by
  have hlen : (l.set i (k, c')).length = l.length := List.length_set l i (k, c')
  have hne : l.set i (k, c') ≠ [] := by
    intro h
    rw [h] at hlen
    simp at hlen
    omega
  apply maxVal?_eq_some hne
  · intro q hq
    rcases List.mem_or_eq_of_mem_set hq with h | h
    · exact le_trans (maxVal?_le hM q h) (le_max_left M c')
    · rw [h]; exact le_max_right M c'
  · rcases le_or_lt M c' with hMc | hMc
    · refine ⟨(k, c'), ?_, by simp [max_eq_right hMc]⟩
      have hi2 : i < (l.set i (k, c')).length := by omega
      have hmem := List.getElem_mem hi2
      rwa [List.getElem_set_self hi2] at hmem
    · obtain ⟨q, hq, hq2⟩ := maxVal?_attained hM
      have hneq : q ≠ l[i] := by
        intro h
        have h2 : l[i].2 = M := by rw [← h]; exact hq2
        rw [h2] at hc
        exact absurd hMc (not_lt.mpr hc)
      exact ⟨q, mem_set_of_ne (k, c') hq hi hneq, by rw [hq2, max_eq_left (le_of_lt hMc)]⟩

/-! ### Rounding and clipping -/

theorem rhe_floor_le (x : ℚ) : ⌊x⌋ ≤ rhe x := by
  unfold rhe; split_ifs <;> omega

theorem rhe_le (x : ℚ) : rhe x ≤ ⌊x⌋ + 1 := by
  unfold rhe; split_ifs <;> omega

theorem rhe_mono {x y : ℚ} (h : x ≤ y) : rhe x ≤ rhe y := by
  rcases lt_or_eq_of_le (Int.floor_mono h : ⌊x⌋ ≤ ⌊y⌋) with hf | hf
  · calc rhe x ≤ ⌊x⌋ + 1 := rhe_le x
      _ ≤ ⌊y⌋ := by omega
      _ ≤ rhe y := rhe_floor_le y
  · have hr : x - ⌊x⌋ ≤ y - ⌊x⌋ := by linarith
    unfold rhe
    rw [← hf]
    split_ifs <;> first | omega | (exfalso; linarith)

theorem round2_mono {x y : ℚ} (h : x ≤ y) : round2 x ≤ round2 y := by
  unfold round2
  have h1 := rhe_mono (by linarith : 100 * x ≤ 100 * y)
  have h2 : ((rhe (100 * x) : ℚ)) ≤ ((rhe (100 * y) : ℚ)) := by exact_mod_cast h1
  linarith

theorem pyclip_mono {x y lo hi : ℚ} (h : x ≤ y) : pyclip x lo hi ≤ pyclip y lo hi :=
  min_le_min le_rfl (max_le_max h le_rfl)

theorem rhe_intCast (n : ℤ) : rhe ((n : ℚ)) = n := by
  unfold rhe
  rw [Int.floor_intCast]
  norm_num

theorem round2_int (n : ℤ) : round2 ((n : ℚ)) = n := by
  unfold round2
  have h : (100 : ℚ) * n = ((100 * n : ℤ) : ℚ) := by push_cast; ring
  rw [h, rhe_intCast]
  push_cast; ring

theorem rhe_tie (x : ℚ) (n : ℤ) (h : x = (n : ℚ) + 1/2) :
    rhe x = if n % 2 = 0 then n else n + 1 := by
  have hf : ⌊x⌋ = n := by
    rw [h, add_comm, Int.floor_add_int]
    norm_num
  unfold rhe
  rw [hf, h]
  norm_num

theorem pyclip_of_mem {x hi : ℚ} (h0 : 0 ≤ x) (hc : x ≤ hi) : pyclip x 0 hi = x := by
  unfold pyclip; rw [max_eq_left h0, min_eq_right hc]

theorem pyclip_of_ge {x hi : ℚ} (h0 : 0 ≤ hi) (hc : hi ≤ x) : pyclip x 0 hi = hi := by
  unfold pyclip; rw [max_eq_left (le_trans h0 hc), min_eq_left hc]

/-! ### Structure of `compute_class_weights` -/

theorem compute_fst {α : Type} (d : List (α × ℚ)) (s clip : ℚ) :
    (compute_class_weights d s clip).1 =
      if 0 ≤ s ∧ s ≤ 1 then smoothedData d s else d := by
  by_cases hr : 0 ≤ s ∧ s ≤ 1
  · by_cases hs : 0 < s
    · cases hmax : maxVal? d with
      | none => simp [compute_class_weights, smoothedData, hr, hs, hmax]
      | some m => simp [compute_class_weights, smoothedData, hr, hs, hmax]
    · simp [compute_class_weights, smoothedData, hr, hs]
  · simp [compute_class_weights, hr]

theorem compute_snd {α : Type} (d : List (α × ℚ)) (s clip : ℚ) :
    (compute_class_weights d s clip).2 =
      if 0 ≤ s ∧ s ≤ 1 then weightsOf (smoothedData d s) clip
      else .error .smoothingOutOfRange := by
  by_cases hr : 0 ≤ s ∧ s ≤ 1
  · by_cases hs : 0 < s
    · cases hmax : maxVal? d with
      | none =>
        have hd : d = [] := (maxVal?_eq_none_iff d).mp hmax
        subst hd
        simp [compute_class_weights, smoothedData, weightsOf, hr, hs, maxVal?]
      | some m => simp [compute_class_weights, smoothedData, hr, hs, hmax]
    · simp [compute_class_weights, smoothedData, hr, hs]
  · simp [compute_class_weights, hr]

theorem weightsOf_ok_elim {α : Type} {d : List (α × ℚ)} {clip : ℚ} {w : List (α × ℚ)}
    (h : weightsOf d clip = .ok w) :
    ∃ M, maxVal? d = some M ∧ (∀ p ∈ d, p.2 ≠ 0) ∧
      w = d.map (fun p => (p.1, pyclip (round2 (M / p.2)) 0 clip)) := by
  unfold weightsOf at h
  split at h
  · simp at h
  · next M heq =>
    split at h
    · simp at h
    · next hz =>
      push_neg at hz
      simp only [Except.ok.injEq] at h
      exact ⟨M, heq, hz, h.symm⟩

theorem compute_ok_elim {α : Type} {d : List (α × ℚ)} {s clip : ℚ} {w : List (α × ℚ)}
    (h : (compute_class_weights d s clip).2 = .ok w) :
    0 ≤ s ∧ s ≤ 1 ∧ ∃ M, maxVal? (smoothedData d s) = some M ∧
      (∀ p ∈ smoothedData d s, p.2 ≠ 0) ∧
      w = (smoothedData d s).map (fun p => (p.1, pyclip (round2 (M / p.2)) 0 clip)) := by
  rw [compute_snd] at h
  by_cases hr : 0 ≤ s ∧ s ≤ 1
  · rw [if_pos hr] at h
    obtain ⟨M, hmax, hz, hw⟩ := weightsOf_ok_elim h
    exact ⟨hr.1, hr.2, M, hmax, hz, hw⟩
  · rw [if_neg hr] at h; simp at h

theorem smoothedData_eq_map {α : Type} {d : List (α × ℚ)} {s M : ℚ} (hs : 0 ≤ s)
    (hM : maxVal? d = some M) :
    smoothedData d s = d.map (fun p => (p.1, p.2 + M * s)) := by
  by_cases hpos : 0 < s
  · unfold smoothedData
    rw [if_pos hpos, hM]
  · have hs0 : s = 0 := le_antisymm (not_lt.mp hpos) hs
    have hfun : (fun (p : α × ℚ) => (p.1, p.2 + M * s)) = id := by
      funext p; simp [hs0]
    unfold smoothedData
    rw [if_neg hpos, hfun, List.map_id]

theorem maxVal?_smoothed {α : Type} {d : List (α × ℚ)} {s M : ℚ} (hs : 0 ≤ s)
    (hM : maxVal? d = some M) :
    maxVal? (smoothedData d s) = some (M + M * s) := by
  rw [smoothedData_eq_map hs hM, maxVal?_map_add, hM]
  rfl

theorem maxVal?_nonneg {α : Type} {d : List (α × ℚ)} {M : ℚ}
    (hnn : ∀ p ∈ d, 0 ≤ p.2) (hM : maxVal? d = some M) : 0 ≤ M := by
  obtain ⟨r, hr, hr2⟩ := maxVal?_attained hM
  rw [← hr2]
  exact hnn r hr

theorem ratio_le_ratio_other {M N c s : ℚ} (hs : 0 ≤ s) (hc : 0 ≤ c) (hMN : M ≤ N)
    (hd : 0 < c + M * s) (hd2 : 0 < c + N * s) :
    (M + M * s) / (c + M * s) ≤ (N + N * s) / (c + N * s) := by
  rw [div_le_div_iff hd hd2]
  nlinarith [mul_nonneg (mul_nonneg (sub_nonneg.mpr hMN) hc) (by linarith : (0:ℚ) ≤ 1 + s)]

theorem ratio_le_ratio_self {M c c' s : ℚ} (hs : 0 ≤ s) (hc : 0 ≤ c) (hcM : c ≤ M)
    (hcc : c ≤ c') (hd : 0 < c + M * s) (hd2 : 0 < c' + max M c' * s) :
    (max M c' + max M c' * s) / (c' + max M c' * s) ≤ (M + M * s) / (c + M * s) := by
  rcases le_or_lt c' M with h | h
  · rw [max_eq_left h] at hd2 ⊢
    have hM0 : 0 ≤ M := le_trans hc hcM
    have hnum : 0 ≤ M + M * s := by nlinarith
    exact div_le_div_of_nonneg_left hnum hd (by linarith)
  · rw [max_eq_right (le_of_lt h)] at hd2 ⊢
    have hc2 : 0 < c' := lt_of_le_of_lt (le_trans hc hcM) h
    have hnum : 0 < c' + c' * s := hd2
    rw [div_self (ne_of_gt hnum)]
    rw [one_le_div hd]
    nlinarith

theorem weights_getD {α : Type} {d w : List (α × ℚ)} {s clip M0 Mj : ℚ} (d0 : α × ℚ)
    (hs0 : 0 ≤ s) (hM0 : maxVal? d = some M0)
    (hweq : w = (smoothedData d s).map (fun p => (p.1, pyclip (round2 (Mj / p.2)) 0 clip)))
    (j : ℕ) (hj : j < d.length) :
    w.getD j d0 = ((d[j].1), pyclip (round2 (Mj / (d[j].2 + M0 * s))) 0 clip) := by
  rw [List.getD_eq_getElem?_getD, hweq, smoothedData_eq_map hs0 hM0,
      List.getElem?_map, List.getElem?_map, List.getElem?_eq_getElem hj]
  rfl

/-- C6: increasing the count of one class while the others stay fixed never
increases that class's returned weight and never decreases any other
class's returned weight.  Stated for any counts list of nonnegative counts
and any smoothing/clip on which both calls succeed (success forces the
smoothing into `[0, 1]` and every post-smoothing count to be nonzero). -/
theorem claim_C6 (d : List (ℕ × ℚ)) (i : ℕ) (c' : ℚ) (s clip : ℚ)
    (w w' : List (ℕ × ℚ))
    (hi : i < d.length)
    (hnn : ∀ p ∈ d, 0 ≤ p.2)
    (hinc : d[i].2 ≤ c')
    (hw : (compute_class_weights d s clip).2 = .ok w)
    (hw' : (compute_class_weights (d.set i (d[i].1, c')) s clip).2 = .ok w') :
    (w'.getD i (0, 0)).2 ≤ (w.getD i (0, 0)).2 ∧
      ∀ j, j < d.length → j ≠ i → (w.getD j (0, 0)).2 ≤ (w'.getD j (0, 0)).2 := by
  obtain ⟨hs0, hs1, Mj, hmaxw, hnz, hweq⟩ := compute_ok_elim hw
  obtain ⟨-, -, Mj', hmaxw', hnz', hweq'⟩ := compute_ok_elim hw'
  have hdne : d ≠ [] := by intro h; subst h; simp at hi
  obtain ⟨M0, hM0⟩ : ∃ m, maxVal? d = some m := by
    cases hd : maxVal? d with
    | none => exact absurd ((maxVal?_eq_none_iff d).mp hd) hdne
    | some m => exact ⟨m, rfl⟩
  have hM0nn : 0 ≤ M0 := maxVal?_nonneg hnn hM0
  have hM' : maxVal? (d.set i (d[i].1, c')) = some (max M0 c') :=
    maxVal?_set hi hM0 hinc (d[i].1)
  have hMj : Mj = M0 + M0 * s := by
    have h2 := maxVal?_smoothed hs0 hM0
    rw [hmaxw] at h2
    exact Option.some.inj h2
  have hMj' : Mj' = max M0 c' + max M0 c' * s := by
    have h2 := maxVal?_smoothed (d := d.set i (d[i].1, c')) hs0 hM'
    rw [hmaxw'] at h2
    exact Option.some.inj h2
  have hld : (d.set i (d[i].1, c')).length = d.length := List.length_set d i _
  have hnn' : ∀ p ∈ d.set i (d[i].1, c'), 0 ≤ p.2 := by
    intro p hp
    rcases List.mem_or_eq_of_mem_set hp with h | h
    · exact hnn p h
    · rw [h]; exact le_trans (hnn _ (List.getElem_mem hi)) hinc
  have hM'nn : 0 ≤ max M0 c' := le_trans hM0nn (le_max_left _ _)
  have hpos : ∀ j, (hj : j < d.length) → 0 < d[j].2 + M0 * s := by
    intro j hj
    have hmem : (d[j].1, d[j].2 + M0 * s) ∈ smoothedData d s := by
      rw [smoothedData_eq_map hs0 hM0]
      exact List.mem_map.mpr ⟨d[j], List.getElem_mem hj, rfl⟩
    have hne : d[j].2 + M0 * s ≠ 0 := by simpa using hnz _ hmem
    have hge : 0 ≤ d[j].2 + M0 * s :=
      add_nonneg (hnn _ (List.getElem_mem hj)) (mul_nonneg hM0nn hs0)
    exact lt_of_le_of_ne hge (Ne.symm hne)
  have hpos' : ∀ j, (hj : j < (d.set i (d[i].1, c')).length) →
      0 < (d.set i (d[i].1, c'))[j].2 + max M0 c' * s := by
    intro j hj
    have hmem : ((d.set i (d[i].1, c'))[j].1,
        (d.set i (d[i].1, c'))[j].2 + max M0 c' * s) ∈
        smoothedData (d.set i (d[i].1, c')) s := by
      rw [smoothedData_eq_map hs0 hM']
      exact List.mem_map.mpr ⟨(d.set i (d[i].1, c'))[j], List.getElem_mem hj, rfl⟩
    have hne : (d.set i (d[i].1, c'))[j].2 + max M0 c' * s ≠ 0 := by
      simpa using hnz' _ hmem
    have hge : 0 ≤ (d.set i (d[i].1, c'))[j].2 + max M0 c' * s :=
      add_nonneg (hnn' _ (List.getElem_mem hj)) (mul_nonneg hM'nn hs0)
    exact lt_of_le_of_ne hge (Ne.symm hne)
  have hii : i < (d.set i (d[i].1, c')).length := by omega
  have hseti : (d.set i (d[i].1, c'))[i] = (d[i].1, c') := List.getElem_set_self hii
  constructor
  · rw [weights_getD (0, 0) hs0 hM0 hweq i hi,
        weights_getD (0, 0) hs0 hM' hweq' i (by omega)]
    simp only []
    apply pyclip_mono
    apply round2_mono
    rw [hMj, hMj']
    have hd2 := hpos' i hii
    rw [hseti] at hd2 ⊢
    exact ratio_le_ratio_self hs0 (hnn _ (List.getElem_mem hi))
      (maxVal?_le hM0 _ (List.getElem_mem hi)) hinc (hpos i hi) hd2
  · intro j hj hji
    rw [weights_getD (0, 0) hs0 hM0 hweq j hj,
        weights_getD (0, 0) hs0 hM' hweq' j (by omega)]
    simp only []
    apply pyclip_mono
    apply round2_mono
    rw [hMj, hMj']
    have hjset : j < (d.set i (d[i].1, c')).length := by omega
    have hsetj : (d.set i (d[i].1, c'))[j] = d[j] := List.getElem_set_ne (Ne.symm hji) hjset
    have hd2 := hpos' j hjset
    rw [hsetj] at hd2 ⊢
    exact ratio_le_ratio_other hs0 (hnn _ (List.getElem_mem hj))
      (le_max_left M0 c') (hpos j hj) hd2

/-! ### Evaluation helpers for concrete inputs -/

theorem rhe_eq_low (y : ℚ) (n : ℤ) (h1 : (n : ℚ) ≤ y) (h2 : y < n + 1/2) :
    rhe y = n := by
  have hf : ⌊y⌋ = n := by
    rw [Int.floor_eq_iff]
    exact ⟨h1, by push_cast; linarith⟩
  unfold rhe
  rw [hf, if_pos (by linarith)]

theorem rhe_eq_high (y : ℚ) (n : ℤ) (h1 : (n : ℚ) + 1/2 < y) (h2 : y < n + 1) :
    rhe y = n + 1 := by
  have hf : ⌊y⌋ = n := by
    rw [Int.floor_eq_iff]
    exact ⟨by linarith, by push_cast; linarith⟩
  unfold rhe
  rw [hf, if_neg (by linarith), if_pos (by linarith)]

theorem round2_eq_low (x : ℚ) (n : ℤ) (h1 : (n : ℚ) ≤ 100 * x)
    (h2 : 100 * x < n + 1/2) : round2 x = n / 100 := by
  unfold round2
  rw [rhe_eq_low (100 * x) n h1 h2]

theorem round2_eq_high (x : ℚ) (n : ℤ) (h1 : (n : ℚ) + 1/2 < 100 * x)
    (h2 : 100 * x < n + 1) : round2 x = (n + 1) / 100 := by
  unfold round2
  rw [rhe_eq_high (100 * x) n h1 h2]
  push_cast
  ring

theorem round2_eq_tie (x : ℚ) (n : ℤ) (h : 100 * x = (n : ℚ) + 1/2) :
    round2 x = (if n % 2 = 0 then (n : ℚ) else n + 1) / 100 := by
  unfold round2
  rw [rhe_tie (100 * x) n h]
  split_ifs <;> push_cast <;> ring

theorem weightsOf_eq_ok {α : Type} {d : List (α × ℚ)} {clip M : ℚ}
    (hM : maxVal? d = some M) (hz : ∀ p ∈ d, p.2 ≠ 0) :
    weightsOf d clip = .ok (d.map (fun p => (p.1, pyclip (round2 (M / p.2)) 0 clip))) := by
  unfold weightsOf
  rw [hM]
  show (if ∃ p ∈ d, p.2 = 0 then Except.error WErr.divisionByZero
        else Except.ok (d.map (fun p => (p.1, pyclip (round2 (M / p.2)) 0 clip)))) = _
  rw [if_neg (by push_neg; exact hz)]

theorem maxVal?_pair_21 : maxVal? [((0 : ℕ), (2 : ℚ)), (1, 1)] = some 2 := by
  simp [maxVal?]
  try norm_num [max_def]

theorem maxVal?_pair_22 : maxVal? [((0 : ℕ), (2 : ℚ)), (1, 2)] = some 2 := by
  simp [maxVal?]
  try norm_num [max_def]

theorem compute_eval_21 :
    (compute_class_weights [((0 : ℕ), (2 : ℚ)), (1, 1)] 0 10).2 =
      .ok [(0, 1), (1, 2)] := by
  have hsm : smoothedData [((0 : ℕ), (2 : ℚ)), (1, 1)] 0 = [(0, 2), (1, 1)] := by
    simp [smoothedData]
  rw [compute_snd, if_pos (by norm_num), hsm,
      weightsOf_eq_ok maxVal?_pair_21 (by intro p hp; fin_cases hp <;> norm_num)]
  have hr1 : round2 ((2 : ℚ) / 2) = 1 := by
    rw [round2_eq_low ((2 : ℚ) / 2) 100 (by norm_num) (by norm_num)]
    try norm_num
  have hr2 : round2 ((2 : ℚ) / 1) = 2 := by
    rw [round2_eq_low ((2 : ℚ) / 1) 200 (by norm_num) (by norm_num)]
    try norm_num
  simp only [List.map_cons, List.map_nil, hr1, hr2]
  rw [pyclip_of_mem (by norm_num) (by norm_num), pyclip_of_mem (by norm_num) (by norm_num)]

theorem compute_eval_22 :
    (compute_class_weights [((0 : ℕ), (2 : ℚ)), (1, 2)] 0 10).2 =
      .ok [(0, 1), (1, 1)] := by
  have hsm : smoothedData [((0 : ℕ), (2 : ℚ)), (1, 2)] 0 = [(0, 2), (1, 2)] := by
    simp [smoothedData]
  rw [compute_snd, if_pos (by norm_num), hsm,
      weightsOf_eq_ok maxVal?_pair_22 (by intro p hp; fin_cases hp <;> norm_num)]
  have hr1 : round2 ((2 : ℚ) / 2) = 1 := by
    rw [round2_eq_low ((2 : ℚ) / 2) 100 (by norm_num) (by norm_num)]
    try norm_num
  simp only [List.map_cons, List.map_nil, hr1]
  rw [pyclip_of_mem (by norm_num) (by norm_num)]

/-- Witness for C6 at counts (2, 1), raising class 1's count from 1 to 2
with smoothing 0 and clip 10: class 1's weight drops from 2 to 1, class 0's
weight stays 1. -/
theorem claim_C6_witness :
    (compute_class_weights [((0 : ℕ), (2 : ℚ)), (1, 1)] 0 10).2 = .ok [(0, 1), (1, 2)] ∧
    (compute_class_weights [((0 : ℕ), (2 : ℚ)), (1, 2)] 0 10).2 = .ok [(0, 1), (1, 1)] ∧
    (([((0 : ℕ), (1 : ℚ)), (1, 1)].getD 1 (0, 0)).2 ≤
      ([((0 : ℕ), (1 : ℚ)), (1, 2)].getD 1 (0, 0)).2) ∧
    (([((0 : ℕ), (1 : ℚ)), (1, 2)].getD 0 (0, 0)).2 ≤
      ([((0 : ℕ), (1 : ℚ)), (1, 1)].getD 0 (0, 0)).2) := by
  have h2 : (compute_class_weights
      ([((0 : ℕ), (2 : ℚ)), (1, 1)].set 1 ([((0 : ℕ), (2 : ℚ)), (1, 1)][1].1, 2)) 0 10).2 =
      .ok [(0, 1), (1, 1)] := compute_eval_22
  have hmain := claim_C6 [((0 : ℕ), (2 : ℚ)), (1, 1)] 1 2 0 10
    [(0, 1), (1, 2)] [(0, 1), (1, 1)]
    (by norm_num)
    (by intro p hp; fin_cases hp <;> norm_num)
    (by show (1 : ℚ) ≤ 2; norm_num)
    compute_eval_21 h2
  exact ⟨compute_eval_21, compute_eval_22, hmain.1, hmain.2 0 (by norm_num) (by norm_num)⟩

theorem weightsOf_eq_divzero {α : Type} {d : List (α × ℚ)} {clip M : ℚ}
    (hM : maxVal? d = some M) (hz : ∃ p ∈ d, p.2 = 0) :
    weightsOf d clip = .error .divisionByZero := by
  unfold weightsOf
  rw [hM]
  show (if ∃ p ∈ d, p.2 = 0 then Except.error WErr.divisionByZero
        else Except.ok (d.map (fun p => (p.1, pyclip (round2 (M / p.2)) 0 clip)))) = _
  rw [if_pos hz]

theorem weightsOf_nil {α : Type} (clip : ℚ) :
    weightsOf ([] : List (α × ℚ)) clip = .error .emptyCounts := rfl

theorem maxVal?_of_ne_nil {α : Type} {l : List (α × ℚ)} (h : l ≠ []) :
    ∃ m, maxVal? l = some m := by
  cases l with
  | nil => exact absurd rfl h
  | cons p t => exact ⟨_, rfl⟩

theorem smoothedData_nil_iff {α : Type} (d : List (α × ℚ)) (s : ℚ) :
    smoothedData d s = [] ↔ d = [] := by
  constructor
  · intro h
    by_cases hs : 0 < s
    · cases hm : maxVal? d with
      | none => exact (maxVal?_eq_none_iff d).mp hm
      | some m =>
        rw [smoothedData_eq_map (le_of_lt hs) hm] at h
        simpa using h
    · unfold smoothedData at h
      rw [if_neg hs] at h
      exact h
  · intro h
    subst h
    unfold smoothedData
    split_ifs <;> simp [maxVal?]

theorem round2_one : round2 (1 : ℚ) = 1 := by
  rw [round2_eq_low 1 100 (by norm_num) (by norm_num)]
  try norm_num

/-- C1 (amended): `compute` is deterministic, but it is not free of side
effects: the caller's counts mapping ends up as `smoothedData` — mutated
by adding `max * smoothing` to every count whenever `0 < smoothing ≤ 1`
and the mapping is nonempty — and it is left unchanged when
`smoothing = 0`. -/
theorem claim_C1 {α : Type} (d : List (α × ℚ)) (s clip : ℚ) :
    ((compute_class_weights d s clip).1 =
      if 0 ≤ s ∧ s ≤ 1 then smoothedData d s else d) ∧
    (s = 0 → (compute_class_weights d s clip).1 = d) := by
  refine ⟨compute_fst d s clip, fun hs => ?_⟩
  subst hs
  rw [compute_fst, if_pos (by norm_num)]
  unfold smoothedData
  rw [if_neg (by norm_num)]

theorem claim_C1_witness :
    (compute_class_weights [((0 : ℕ), (5 : ℚ))] 0 10).1 = [(0, 5)] :=
  (claim_C1 [((0 : ℕ), (5 : ℚ))] 0 10).2 rfl

/-- C1 counterexample: with the default smoothing 0.15 (= 3/20, a valid
smoothing) and a nonempty mapping, the call changes the caller-supplied
counts mapping from [(0, 1)] to [(0, 23/20)]. -/
theorem claim_C1_cex :
    (compute_class_weights [((0 : ℕ), (1 : ℚ))] (3/20) 10).1 = [(0, 23/20)] ∧
    [((0 : ℕ), (23/20 : ℚ))] ≠ [((0 : ℕ), (1 : ℚ))] ∧
    (0 : ℚ) ≤ 3/20 ∧ (3/20 : ℚ) ≤ 1 := by
  refine ⟨?_, by norm_num, by norm_num, by norm_num⟩
  rw [compute_fst, if_pos (by norm_num)]
  have hmax : maxVal? [((0 : ℕ), (1 : ℚ))] = some 1 := by simp [maxVal?]
  rw [smoothedData_eq_map (by norm_num) hmax]
  norm_num

/-- C3 (amended): `compute` fails if and only if the smoothing is outside
[0, 1], or the counts mapping is empty, or some post-smoothing count is
zero (with nonnegative counts: all counts zero, or smoothing 0 and some
individual count zero).  Every division performed on the success path has
a nonzero divisor, so no NaN or Infinity can arise. -/
theorem claim_C3 {α : Type} (d : List (α × ℚ)) (s clip : ℚ) :
    (∃ e, (compute_class_weights d s clip).2 = .error e) ↔
      (s < 0 ∨ 1 < s ∨ d = [] ∨ ∃ p ∈ smoothedData d s, p.2 = 0) := by
  rw [compute_snd]
  by_cases hr : 0 ≤ s ∧ s ≤ 1
  · rw [if_pos hr]
    constructor
    · rintro ⟨e, he⟩
      by_cases hz : ∃ p ∈ smoothedData d s, p.2 = 0
      · exact Or.inr (Or.inr (Or.inr hz))
      · by_cases hd : d = []
        · exact Or.inr (Or.inr (Or.inl hd))
        · exfalso
          have hsm : smoothedData d s ≠ [] := by
            intro h; exact hd ((smoothedData_nil_iff d s).mp h)
          obtain ⟨M, hM⟩ := maxVal?_of_ne_nil hsm
          push_neg at hz
          rw [weightsOf_eq_ok hM hz] at he
          simp at he
    · intro h
      rcases h with h | h | h | h
      · exact absurd hr.1 (not_le.mpr h)
      · exact absurd hr.2 (not_le.mpr h)
      · refine ⟨.emptyCounts, ?_⟩
        rw [(smoothedData_nil_iff d s).mpr h]
        exact weightsOf_nil clip
      · have hsm : smoothedData d s ≠ [] := by
          obtain ⟨p, hp, -⟩ := h
          intro h2
          rw [h2] at hp
          simp at hp
        obtain ⟨M, hM⟩ := maxVal?_of_ne_nil hsm
        exact ⟨.divisionByZero, weightsOf_eq_divzero hM h⟩
  · rw [if_neg hr]
    constructor
    · intro _
      rcases not_and_or.mp hr with h | h
      · exact Or.inl (not_le.mp h)
      · exact Or.inr (Or.inl (not_le.mp h))
    · intro _
      exact ⟨.smoothingOutOfRange, rfl⟩

/-- C3 counterexample: at counts [(0, 5), (1, 0)] with smoothing 0 (in
range) the mapping is nonempty and not all counts are zero, yet the call
fails (with the division-by-zero error, not an invalid-argument error). -/
theorem claim_C3_cex :
    (compute_class_weights [((0 : ℕ), (5 : ℚ)), (1, 0)] 0 10).2 =
      .error .divisionByZero ∧
    (0 : ℚ) ≤ 0 ∧ (0 : ℚ) ≤ 1 ∧
    ([((0 : ℕ), (5 : ℚ)), (1, 0)] ≠ ([] : List (ℕ × ℚ))) ∧
    ¬ (∀ p ∈ [((0 : ℕ), (5 : ℚ)), (1, 0)], p.2 = 0) := by
  refine ⟨?_, le_refl 0, by norm_num, by simp, ?_⟩
  · rw [compute_snd, if_pos (by norm_num)]
    have hsm : smoothedData [((0 : ℕ), (5 : ℚ)), (1, 0)] 0 = [(0, 5), (1, 0)] := by
      simp [smoothedData]
    rw [hsm]
    have hmax : maxVal? [((0 : ℕ), (5 : ℚ)), (1, 0)] = some 5 := by
      simp [maxVal?]
      try norm_num [max_def]
    exact weightsOf_eq_divzero hmax ⟨(1, 0), by simp, rfl⟩
  · intro h
    have h2 := h (0, 5) (by simp)
    norm_num at h2

/-- C4 (amended): provided the clip ceiling is at least 1, whenever
`compute` succeeds, every class whose post-smoothing count equals the
post-smoothing majority is mapped to weight exactly 1. -/
theorem claim_C4 {α : Type} (d : List (α × ℚ)) (s clip : ℚ) (w : List (α × ℚ))
    (k : α) (v : ℚ)
    (hclip : 1 ≤ clip)
    (hw : (compute_class_weights d s clip).2 = .ok w)
    (hmem : (k, v) ∈ smoothedData d s)
    (hmax : maxVal? (smoothedData d s) = some v) :
    (k, (1 : ℚ)) ∈ w := by
  obtain ⟨hs0, hs1, M, hM, hnz, hweq⟩ := compute_ok_elim hw
  have hMv : M = v := by
    rw [hM] at hmax
    exact Option.some.inj hmax
  subst hweq
  have hv0 : v ≠ 0 := hnz (k, v) hmem
  refine List.mem_map.mpr ⟨(k, v), hmem, ?_⟩
  have hvv : M / v = 1 := by rw [hMv]; exact div_self hv0
  simp only [hvv, round2_one]
  rw [pyclip_of_mem (by norm_num) hclip]

theorem claim_C4_witness : ((0 : ℕ), (1 : ℚ)) ∈ [((0 : ℕ), (1 : ℚ)), (1, 2)] := by
  have hsm : smoothedData [((0 : ℕ), (2 : ℚ)), (1, 1)] 0 = [(0, 2), (1, 1)] := by
    simp [smoothedData]
  exact claim_C4 [((0 : ℕ), (2 : ℚ)), (1, 1)] 0 10 [(0, 1), (1, 2)] 0 2
    (by norm_num) compute_eval_21 (by rw [hsm]; simp) (by rw [hsm]; exact maxVal?_pair_21)

/-- C4 counterexample: the claim quantifies over every valid clip, but with
clip = 1/2 (and a single class of count 4, smoothing 0) the majority class
gets weight 1/2, not 1.0: the rounded ratio 1.0 is clipped down to the
ceiling. -/
theorem claim_C4_cex :
    (compute_class_weights [((0 : ℕ), (4 : ℚ))] 0 (1/2)).2 = .ok [(0, 1/2)] ∧
    maxVal? [((0 : ℕ), (4 : ℚ))] = some 4 ∧ (0 : ℚ) < 4 ∧
    (0 : ℚ) ≤ 0 ∧ (0 : ℚ) ≤ 1 ∧ ((1/2 : ℚ) ≠ 1) := by
  have hmax : maxVal? [((0 : ℕ), (4 : ℚ))] = some 4 := by simp [maxVal?]
  refine ⟨?_, hmax, by norm_num, le_refl 0, by norm_num, by norm_num⟩
  have hsm : smoothedData [((0 : ℕ), (4 : ℚ))] 0 = [(0, 4)] := by
    simp [smoothedData]
  rw [compute_snd, if_pos (by norm_num), hsm,
      weightsOf_eq_ok hmax (by intro p hp; fin_cases hp <;> norm_num)]
  have h44 : (4 : ℚ) / 4 = 1 := by norm_num
  simp only [List.map_cons, List.map_nil, h44, round2_one]
  rw [pyclip_of_ge (by norm_num) (by norm_num)]

/-- The rounding the specification describes, modelled from the spec's
words: "conventional half-up decimal rounding to 2 places" — round
100·x to the nearest integer with ties going up, then divide by 100. -/
def specRoundHalfUp2 (x : ℚ) : ℚ := (⌊100 * x + 1/2⌋ : ℚ) / 100

/-- C5 (amended): each weight is obtained by rounding majority/count to 2
decimal places first and clipping to [0, clip] second; the rounding is
round-half-even (Python's `round`), which at an exact tie returns the even
neighbouring multiple of 1/100, and a rounded value equal to the clip
boundary is kept at the boundary.  The last conjunct shows clipping acts
after rounding: with clip = 251/250 = 1.004 (not a multiple of 1/100) the
minority weight comes out as exactly 1.004. -/
theorem claim_C5 :
    (∀ (d : List (ℕ × ℚ)) (s clip : ℚ) (w : List (ℕ × ℚ)) (M : ℚ),
        (compute_class_weights d s clip).2 = .ok w →
        maxVal? (smoothedData d s) = some M →
        w = (smoothedData d s).map (fun p => (p.1, pyclip (round2 (M / p.2)) 0 clip))) ∧
    (∀ (x : ℚ) (n : ℤ), 100 * x = (n : ℚ) + 1/2 →
        round2 x = (if n % 2 = 0 then (n : ℚ) else (n : ℚ) + 1) / 100) ∧
    (∀ (x clip : ℚ), 0 ≤ clip → round2 x = clip →
        pyclip (round2 x) 0 clip = clip) ∧
    (compute_class_weights [((0 : ℕ), (1000 : ℚ)), (1, 1)] 0 (251/250)).2 =
      .ok [(0, 1), (1, 251/250)] := by
  refine ⟨?_, ?_, ?_, ?_⟩
  · intro d s clip w M hw hM
    obtain ⟨-, -, M2, hM2, -, hweq⟩ := compute_ok_elim hw
    have hMM : M2 = M := by
      rw [hM2] at hM
      exact Option.some.inj hM
    rw [← hMM]
    exact hweq
  · intro x n h
    exact round2_eq_tie x n h
  · intro x clip h0 hr
    rw [hr]
    exact pyclip_of_ge h0 le_rfl
  · have hmax : maxVal? [((0 : ℕ), (1000 : ℚ)), (1, 1)] = some 1000 := by
      simp [maxVal?]
      try norm_num [max_def]
    have hsm : smoothedData [((0 : ℕ), (1000 : ℚ)), (1, 1)] 0 = [(0, 1000), (1, 1)] := by
      simp [smoothedData]
    rw [compute_snd, if_pos (by norm_num), hsm,
        weightsOf_eq_ok hmax (by intro p hp; fin_cases hp <;> norm_num)]
    have h1 : (1000 : ℚ) / 1000 = 1 := by norm_num
    have h2 : round2 ((1000 : ℚ) / 1) = 1000 := by
      rw [round2_eq_low ((1000 : ℚ) / 1) 100000 (by norm_num) (by norm_num)]
      try norm_num
    simp only [List.map_cons, List.map_nil, h1, h2, round2_one]
    rw [pyclip_of_mem (by norm_num) (by norm_num), pyclip_of_ge (by norm_num) (by norm_num)]

theorem claim_C5_witness : round2 ((11 : ℚ) / 8) = 138/100 := by
  have h := claim_C5.2.1 ((11 : ℚ) / 8) 137 (by norm_num)
  rw [h]
  norm_num

/-- C5 counterexample: at counts [(0, 9), (1, 8)] with smoothing 0 the
minority ratio is 9/8 = 1.125, an exact tie at 2 decimal places; the code
(Python `round`, half-even) produces 1.12 = 28/25, while the half-up
rounding described by the spec would produce 1.13 = 113/100. -/
theorem claim_C5_cex :
    (compute_class_weights [((0 : ℕ), (9 : ℚ)), (1, 8)] 0 10).2 =
      .ok [(0, 1), (1, 28/25)] ∧
    specRoundHalfUp2 ((9 : ℚ) / 8) = 113/100 ∧ ((28/25 : ℚ) ≠ 113/100) := by
  refine ⟨?_, ?_, by norm_num⟩
  · have hmax : maxVal? [((0 : ℕ), (9 : ℚ)), (1, 8)] = some 9 := by
      simp [maxVal?]
      try norm_num [max_def]
    have hsm : smoothedData [((0 : ℕ), (9 : ℚ)), (1, 8)] 0 = [(0, 9), (1, 8)] := by
      simp [smoothedData]
    rw [compute_snd, if_pos (by norm_num), hsm,
        weightsOf_eq_ok hmax (by intro p hp; fin_cases hp <;> norm_num)]
    have h99 : (9 : ℚ) / 9 = 1 := by norm_num
    have h98 : round2 ((9 : ℚ) / 8) = 28/25 := by
      rw [round2_eq_tie ((9 : ℚ) / 8) 112 (by norm_num)]
      norm_num
    simp only [List.map_cons, List.map_nil, h99, h98, round2_one]
    rw [pyclip_of_mem (by norm_num) (by norm_num),
        pyclip_of_mem (by norm_num) (by norm_num)]
  · unfold specRoundHalfUp2
    rw [show (100 : ℚ) * (9/8) + 1/2 = ((113 : ℤ) : ℚ) by norm_num, Int.floor_intCast]
    norm_num

/-- C9: with a positive maximum count and positive smoothing, every
post-smoothing count is strictly positive and the call succeeds (no
division by zero); with smoothing 0 the call succeeds when every
individual count is positive and raises the division-by-zero error when
some count is zero. -/
theorem claim_C9 (d : List (ℕ × ℚ)) (s clip M : ℚ)
    (hnn : ∀ p ∈ d, 0 ≤ p.2) (hM : maxVal? d = some M) (hMpos : 0 < M) :
    (0 < s → ∀ p ∈ smoothedData d s, 0 < p.2) ∧
    (0 < s → s ≤ 1 → ∃ w, (compute_class_weights d s clip).2 = .ok w) ∧
    (s = 0 → (∀ p ∈ d, 0 < p.2) → ∃ w, (compute_class_weights d 0 clip).2 = .ok w) ∧
    (s = 0 → (∃ p ∈ d, p.2 = 0) →
      (compute_class_weights d 0 clip).2 = .error .divisionByZero) := by
  have hpos : 0 < s → ∀ p ∈ smoothedData d s, 0 < p.2 := by
    intro hs p hp
    rw [smoothedData_eq_map (le_of_lt hs) hM] at hp
    obtain ⟨q, hq, rfl⟩ := List.mem_map.mp hp
    exact add_pos_of_nonneg_of_pos (hnn q hq) (mul_pos hMpos hs)
  have hsm0 : smoothedData d 0 = d := by
    unfold smoothedData
    rw [if_neg (by norm_num)]
  refine ⟨hpos, ?_, ?_, ?_⟩
  · intro hs hs1
    refine ⟨(smoothedData d s).map
      (fun p => (p.1, pyclip (round2 ((M + M * s) / p.2)) 0 clip)), ?_⟩
    rw [compute_snd, if_pos ⟨le_of_lt hs, hs1⟩]
    exact weightsOf_eq_ok (maxVal?_smoothed (le_of_lt hs) hM)
      (fun p hp => ne_of_gt (hpos hs p hp))
  · intro _ hall
    refine ⟨d.map (fun p => (p.1, pyclip (round2 (M / p.2)) 0 clip)), ?_⟩
    rw [compute_snd, if_pos (by norm_num), hsm0]
    exact weightsOf_eq_ok hM (fun p hp => ne_of_gt (hall p hp))
  · intro _ hz
    rw [compute_snd, if_pos (by norm_num), hsm0]
    exact weightsOf_eq_divzero hM hz

theorem claim_C9_witness :
    (compute_class_weights [((0 : ℕ), (1 : ℚ)), (1, 0)] 0 10).2 =
      .error .divisionByZero :=
  (claim_C9 [((0 : ℕ), (1 : ℚ)), (1, 0)] 0 10 1
    (by intro p hp; fin_cases hp <;> norm_num)
    (by simp [maxVal?]; try norm_num [max_def])
    (by norm_num)).2.2.2 rfl ⟨(1, 0), by simp, rfl⟩

/-! ### Lemmas about the checkpoint selector -/

theorem parseFloat?_nonneg {s : List Char} {q : ℚ} (h : parseFloat? s = some q) :
    0 ≤ q := by
  unfold parseFloat? at h
  split at h
  · split at h
    · rw [← Option.some.inj h]
      positivity
    · rw [← Option.some.inj h]
      positivity
    · simp at h
  · simp at h

theorem parseMetric_nonneg {p : List Char} {q : ℚ} (h : parseMetric p = .ok q) :
    0 ≤ q := by
  unfold parseMetric at h
  split at h
  · simp at h
  · split at h
    · split at h
      · next v heq =>
        simp only [Except.ok.injEq] at h
        subst h
        exact parseFloat?_nonneg heq
      · simp at h
    · simp at h

theorem unpackComponents_eq_none {comps : List (List Char)}
    (h2 : comps.length ≠ 2) (h3 : comps.length ≠ 3) :
    unpackComponents comps = none := by
  match comps with
  | [] => rfl
  | [a] => rfl
  | [a, b] => exact absurd rfl h2
  | [a, b, c] => exact absurd rfl h3
  | a :: b :: c :: d :: t =>
    unfold unpackComponents
    rw [if_pos (by simp only [List.length_cons]; omega)]

theorem unpackComponents_two_three {comps : List (List Char)}
    (h : comps.length = 2 ∨ comps.length = 3) :
    ∃ ms, unpackComponents comps = some (comps.headD [], ms) := by
  match comps with
  | [] => simp at h
  | [a] => simp at h
  | [a, b] => exact ⟨b, rfl⟩
  | [a, b, c] => exact ⟨c, rfl⟩
  | a :: b :: c :: d :: t => simp only [List.length_cons] at h; omega

theorem parseMetric_of_unpack_none {p : List Char}
    (hu : unpackComponents (splitOn '_' (stripPth (basename p))) = none) :
    parseMetric p = .error .malformedName := by
  unfold parseMetric
  rw [hu]

theorem parseMetric_of_unpack {p mtype ms : List Char}
    (hu : unpackComponents (splitOn '_' (stripPth (basename p))) = some (mtype, ms)) :
    parseMetric p =
      if mtype = ("classifier").data ∨ mtype = ("segmenter").data then
        (match parseFloat? ((splitOn '-' ms).getLastD []) with
         | some v => Except.ok v
         | none => Except.error FErr.floatParse)
      else Except.error FErr.unknownModelType := by
  unfold parseMetric
  rw [hu]

theorem find_best_single_err {p : List Char} {e : FErr}
    (h : parseMetric p = .error e) : find_best [p] = .error e := by
  unfold find_best
  rw [if_neg (by simp)]
  unfold bestLoop
  rw [h]

theorem maxVal?_append_singleton {α : Type} {l : List (α × ℚ)} {M : ℚ}
    (hM : maxVal? l = some M) (x : α × ℚ) :
    maxVal? (l ++ [x]) = some (max M x.2) := by
  have hne : l ++ [x] ≠ [] := by simp
  apply maxVal?_eq_some hne
  · intro q hq
    rcases List.mem_append.mp hq with h | h
    · exact le_trans (maxVal?_le hM q h) (le_max_left _ _)
    · rw [List.mem_singleton.mp h]
      exact le_max_right _ _
  · rcases le_total M x.2 with h | h
    · exact ⟨x, List.mem_append_right _ (by simp), (max_eq_right h).symm⟩
    · obtain ⟨q, hq, hq2⟩ := maxVal?_attained hM
      exact ⟨q, List.mem_append_left _ hq, by rw [hq2, max_eq_left h]⟩

theorem specSelect_append (l : List (List Char × ℚ)) (x : List Char × ℚ)
    (hl : ∀ q ∈ l, 0 ≤ q.2) (hx : 0 ≤ x.2) :
    specSelect (l ++ [x]) = updateBest (specSelect l) x := by
  cases l with
  | nil =>
    show specSelect [x] = updateBest none x
    unfold specSelect updateBest
    have hm : maxVal? [x] = some x.2 := rfl
    rw [hm]
    dsimp only
    by_cases h0 : x.2 = 0
    · rw [if_pos h0]
      rfl
    · rw [if_neg h0]
      simp
  | cons p0 t0 =>
    obtain ⟨M, hM⟩ := maxVal?_of_ne_nil (l := p0 :: t0) (by simp)
    have hM0 : 0 ≤ M := maxVal?_nonneg hl hM
    have happ := maxVal?_append_singleton hM x
    by_cases hMz : M = 0
    · subst hMz
      have hlne : (p0 :: t0) ≠ [] := by simp
      have hlast : (p0 :: t0).getLast? = some ((p0 :: t0).getLast hlne) :=
        List.getLast?_eq_getLast _ hlne
      have hplmem : (p0 :: t0).getLast hlne ∈ p0 :: t0 := List.getLast_mem hlne
      have hpl2 : ((p0 :: t0).getLast hlne).2 = 0 :=
        le_antisymm (maxVal?_le hM _ hplmem) (hl _ hplmem)
      have hsl : specSelect (p0 :: t0) = some ((p0 :: t0).getLast hlne) := by
        unfold specSelect
        rw [hM]
        dsimp only
        rw [if_pos rfl, hlast]
      rw [hsl]
      unfold updateBest
      dsimp only
      rw [if_pos (Or.inl hpl2)]
      unfold specSelect
      rw [happ]
      dsimp only
      rw [max_eq_right hx]
      by_cases hx0 : x.2 = 0
      · rw [if_pos hx0, List.getLast?_concat]
      · rw [if_neg hx0, List.find?_append]
        have hfn : (p0 :: t0).find? (fun q => decide (q.2 = x.2)) = none := by
          rw [List.find?_eq_none]
          intro a ha
          have h1 : a.2 = 0 := le_antisymm (maxVal?_le hM a ha) (hl a ha)
          simp only [decide_eq_true_eq, h1]
          exact fun hh => hx0 hh.symm
        rw [hfn, Option.none_or]
        simp
    · have hMpos : 0 < M := lt_of_le_of_ne hM0 (Ne.symm hMz)
      obtain ⟨q0, hq0, hq02⟩ := maxVal?_attained hM
      obtain ⟨qf, hqf⟩ : ∃ qf, (p0 :: t0).find? (fun q => decide (q.2 = M)) = some qf := by
        cases hf : (p0 :: t0).find? (fun q => decide (q.2 = M)) with
        | none =>
          rw [List.find?_eq_none] at hf
          exact absurd (by simp [hq02]) (hf q0 hq0)
        | some qf => exact ⟨qf, rfl⟩
      have hqf2 : qf.2 = M := by
        have h2 := List.find?_some hqf
        simpa using h2
      have hsl : specSelect (p0 :: t0) = some qf := by
        unfold specSelect
        rw [hM]
        dsimp only
        rw [if_neg hMz, hqf]
      rw [hsl]
      unfold updateBest
      dsimp only
      by_cases hlt : M < x.2
      · rw [if_pos (Or.inr (by rw [hqf2]; exact hlt))]
        unfold specSelect
        rw [happ]
        dsimp only
        rw [max_eq_right (le_of_lt hlt)]
        have hx0 : x.2 ≠ 0 := ne_of_gt (lt_trans hMpos hlt)
        rw [if_neg hx0, List.find?_append]
        have hfn : (p0 :: t0).find? (fun q => decide (q.2 = x.2)) = none := by
          rw [List.find?_eq_none]
          intro a ha
          have ham : a.2 ≤ M := maxVal?_le hM a ha
          simp only [decide_eq_true_eq]
          intro hh
          rw [hh] at ham
          exact absurd hlt (not_lt.mpr ham)
        rw [hfn, Option.none_or]
        simp
      · rw [if_neg (by rw [hqf2]; rintro (hh | hh); exacts [hMz hh, hlt hh])]
        unfold specSelect
        rw [happ]
        dsimp only
        rw [max_eq_left (not_lt.mp hlt), if_neg hMz, List.find?_append, hqf]
        rfl

theorem foldl_updateBest_spec (L : List (List Char × ℚ)) (hL : ∀ q ∈ L, 0 ≤ q.2) :
    L.foldl updateBest none = specSelect L := by
  induction L using List.reverseRecOn with
  | nil => rfl
  | append_singleton l x ih =>
    rw [List.foldl_append, List.foldl_cons, List.foldl_nil,
        ih (fun q hq => hL q (List.mem_append_left _ hq)),
        specSelect_append l x (fun q hq => hL q (List.mem_append_left _ hq))
          (hL x (List.mem_append_right _ (by simp)))]

theorem parseAll_nonneg : ∀ {paths : List (List Char)} {L : List (List Char × ℚ)},
    parseAll paths = .ok L → ∀ q ∈ L, 0 ≤ q.2 := by
  intro paths
  induction paths with
  | nil =>
    intro L h q hq
    unfold parseAll at h
    simp only [Except.ok.injEq] at h
    subst h
    simp at hq
  | cons p rest ih =>
    intro L h q hq
    unfold parseAll at h
    split at h
    · simp at h
    · next m heq =>
      split at h
      · simp at h
      · next l2 heq2 =>
        simp only [Except.ok.injEq] at h
        subst h
        rcases List.mem_cons.mp hq with rfl | hq2
        · exact parseMetric_nonneg heq
        · exact ih heq2 q hq2

theorem bestLoop_parseAll : ∀ (paths : List (List Char)) (L : List (List Char × ℚ))
    (b : Option (List Char × ℚ)), parseAll paths = .ok L →
    bestLoop paths b = .ok ((L.foldl updateBest b).map Prod.fst) := by
  intro paths
  induction paths with
  | nil =>
    intro L b h
    unfold parseAll at h
    simp only [Except.ok.injEq] at h
    subst h
    rfl
  | cons p rest ih =>
    intro L b h
    unfold parseAll at h
    split at h
    · simp at h
    · next m heq =>
      split at h
      · simp at h
      · next l2 heq2 =>
        simp only [Except.ok.injEq] at h
        subst h
        unfold bestLoop
        rw [heq]
        show bestLoop rest (updateBest b (p, m)) = _
        rw [List.foldl_cons]
        exact ih l2 (updateBest b (p, m)) heq2

theorem specSelect_attains {L : List (List Char × ℚ)} (hL : ∀ q ∈ L, 0 ≤ q.2)
    {pm : List Char × ℚ} (h : specSelect L = some pm) : maxVal? L = some pm.2 := by
  unfold specSelect at h
  split at h
  · simp at h
  · next M hM =>
    rw [hM]
    congr 1
    split at h
    · next hMz =>
      have hmem : pm ∈ L := by
        cases L with
        | nil => simp at h
        | cons a t =>
          have hlne : (a :: t) ≠ [] := by simp
          rw [List.getLast?_eq_getLast _ hlne] at h
          rw [← Option.some.inj h]
          exact List.getLast_mem hlne
      have h1 := maxVal?_le hM pm hmem
      have h2 := hL pm hmem
      rw [hMz] at h1 ⊢
      exact (le_antisymm h1 h2).symm
    · have h2 := List.find?_some h
      simp only [decide_eq_true_eq] at h2
      exact h2.symm

/-- C2 (amended): for a non-empty candidate list whose members all parse,
`find_best` returns exactly the candidate chosen by `specSelect`: the first
candidate attaining the maximum metric when that maximum is nonzero, but
the LAST candidate when the maximum metric is 0 — because the loop's
`not current_best_metric` test treats a stored metric of 0.0 as unset.
The second conjunct states that the chosen candidate's metric is the
maximum over all parsed candidates. -/
theorem claim_C2 (paths : List (List Char)) (L : List (List Char × ℚ))
    (hne : paths ≠ []) (hL : parseAll paths = .ok L) :
    (find_best paths = .ok ((specSelect L).map Prod.fst)) ∧
    (∀ pm, specSelect L = some pm → maxVal? L = some pm.2) := by
  have hnn : ∀ q ∈ L, 0 ≤ q.2 := parseAll_nonneg hL
  constructor
  · unfold find_best
    rw [if_neg (by simpa using hne), bestLoop_parseAll paths L none hL,
        foldl_updateBest_spec L hnn]
  · intro pm hpm
    exact specSelect_attains hnn hpm

theorem claim_C2_witness :
    find_best [("classifier_1.pth").data] = .ok (some (("classifier_1.pth").data)) := by
  have hpm : parseMetric (("classifier_1.pth").data) = .ok 1 := by
    show Except.ok ((digitsToNat (("1").data) : ℚ)) = Except.ok 1
    norm_num [show digitsToNat (("1").data) = 1 from rfl]
  have hparse : parseAll [("classifier_1.pth").data] =
      .ok [((("classifier_1.pth").data), 1)] := by
    unfold parseAll
    rw [hpm]
    rfl
  have h := (claim_C2 [("classifier_1.pth").data] [((("classifier_1.pth").data), 1)]
    (by simp) hparse).1
  rw [h]
  rfl

/-- C2 counterexample: two well-formed candidates both carrying metric 0.
The maximum metric 0 is attained first by "classifier_0.pth", yet
`find_best` returns the second path "segmenter_0.pth": a stored best
metric of 0.0 is falsy in Python, so the next candidate always replaces
it, breaking the first-occurrence tie-break. -/
theorem claim_C2_cex :
    parseMetric (("classifier_0.pth").data) = .ok 0 ∧
    parseMetric (("segmenter_0.pth").data) = .ok 0 ∧
    find_best [("classifier_0.pth").data, ("segmenter_0.pth").data] =
      .ok (some (("segmenter_0.pth").data)) ∧
    ("segmenter_0.pth").data ≠ ("classifier_0.pth").data := by
  have hp0 : parseMetric (("classifier_0.pth").data) = .ok 0 := by
    show Except.ok ((digitsToNat (("0").data) : ℚ)) = Except.ok 0
    norm_num [show digitsToNat (("0").data) = 0 from rfl]
  have hp1 : parseMetric (("segmenter_0.pth").data) = .ok 0 := by
    show Except.ok ((digitsToNat (("0").data) : ℚ)) = Except.ok 0
    norm_num [show digitsToNat (("0").data) = 0 from rfl]
  refine ⟨hp0, hp1, ?_, by decide⟩
  unfold find_best
  rw [if_neg (by simp)]
  unfold bestLoop
  rw [hp0]
  show bestLoop [("segmenter_0.pth").data]
    (updateBest none ((("classifier_0.pth").data), 0)) = _
  unfold bestLoop
  rw [hp1]
  show Except.ok ((updateBest (updateBest none ((("classifier_0.pth").data), 0))
    ((("segmenter_0.pth").data), 0)).map Prod.fst) = _
  rw [show updateBest (updateBest none ((("classifier_0.pth").data), (0 : ℚ)))
      ((("segmenter_0.pth").data), 0) = some ((("segmenter_0.pth").data), 0) from by
    unfold updateBest
    dsimp only
    rw [if_pos (Or.inl rfl)]]
  rfl

/-- C7: on the three candidates of the spec's example, each metric parses
as the float suffix of the metric component after its last dash (0.70,
0.91 and 0.50 respectively), and `find_best` returns the path containing
0.91. -/
theorem claim_C7 :
    parseMetric (("classifier_0.70-0.70.pth").data) = .ok (7/10) ∧
    parseMetric (("classifier_0.91-0.91.pth").data) = .ok (91/100) ∧
    parseMetric (("segmenter_0.50.pth").data) = .ok (1/2) ∧
    find_best [("classifier_0.70-0.70.pth").data, ("classifier_0.91-0.91.pth").data,
               ("segmenter_0.50.pth").data] =
      .ok (some (("classifier_0.91-0.91.pth").data)) := by
  have hp1 : parseMetric (("classifier_0.70-0.70.pth").data) = .ok (7/10) := by
    show Except.ok ((digitsToNat (("0").data) : ℚ) +
      (digitsToNat (("70").data) : ℚ) / 10 ^ (("70").data).length) = Except.ok (7/10)
    norm_num [show digitsToNat (("0").data) = 0 from rfl,
              show digitsToNat (("70").data) = 70 from rfl,
              show (("70").data).length = 2 from rfl]
  have hp2 : parseMetric (("classifier_0.91-0.91.pth").data) = .ok (91/100) := by
    show Except.ok ((digitsToNat (("0").data) : ℚ) +
      (digitsToNat (("91").data) : ℚ) / 10 ^ (("91").data).length) = Except.ok (91/100)
    norm_num [show digitsToNat (("0").data) = 0 from rfl,
              show digitsToNat (("91").data) = 91 from rfl,
              show (("91").data).length = 2 from rfl]
  have hp3 : parseMetric (("segmenter_0.50.pth").data) = .ok (1/2) := by
    show Except.ok ((digitsToNat (("0").data) : ℚ) +
      (digitsToNat (("50").data) : ℚ) / 10 ^ (("50").data).length) = Except.ok (1/2)
    norm_num [show digitsToNat (("0").data) = 0 from rfl,
              show digitsToNat (("50").data) = 50 from rfl,
              show (("50").data).length = 2 from rfl]
  refine ⟨hp1, hp2, hp3, ?_⟩
  unfold find_best
  rw [if_neg (by simp)]
  unfold bestLoop
  rw [hp1]
  show bestLoop [("classifier_0.91-0.91.pth").data, ("segmenter_0.50.pth").data]
    (updateBest none ((("classifier_0.70-0.70.pth").data), 7/10)) = _
  unfold bestLoop
  rw [hp2]
  show bestLoop [("segmenter_0.50.pth").data]
    (updateBest (updateBest none ((("classifier_0.70-0.70.pth").data), 7/10))
      ((("classifier_0.91-0.91.pth").data), 91/100)) = _
  rw [show updateBest (updateBest none ((("classifier_0.70-0.70.pth").data), (7:ℚ)/10))
      ((("classifier_0.91-0.91.pth").data), 91/100) =
      some ((("classifier_0.91-0.91.pth").data), 91/100) from by
    unfold updateBest
    dsimp only
    rw [if_pos (Or.inr (by norm_num))]]
  unfold bestLoop
  rw [hp3]
  show Except.ok ((updateBest (some ((("classifier_0.91-0.91.pth").data), 91/100))
    ((("segmenter_0.50.pth").data), 1/2)).map Prod.fst) = _
  rw [show updateBest (some ((("classifier_0.91-0.91.pth").data), (91:ℚ)/100))
      ((("segmenter_0.50.pth").data), 1/2) =
      some ((("classifier_0.91-0.91.pth").data), 91/100) from by
    unfold updateBest
    dsimp only
    rw [if_neg (by push_neg; constructor <;> norm_num)]]
  rfl

/-- C8: component counts other than 2 or 3 make the per-candidate parse
fail with the malformed-name error (Python's tuple-unpacking ValueError),
and a well-formed split whose first component is neither "classifier" nor
"segmenter" fails with the unrecognized-model-type error (the assert on
`mtype`). -/
theorem claim_C8 (p : List Char) :
    (((splitOn '_' (stripPth (basename p))).length ≠ 2 ∧
      (splitOn '_' (stripPth (basename p))).length ≠ 3) →
      find_best [p] = .error .malformedName) ∧
    (((splitOn '_' (stripPth (basename p))).length = 2 ∨
      (splitOn '_' (stripPth (basename p))).length = 3) →
      ¬((splitOn '_' (stripPth (basename p))).headD [] = ("classifier").data ∨
        (splitOn '_' (stripPth (basename p))).headD [] = ("segmenter").data) →
      find_best [p] = .error .unknownModelType) := by
  constructor
  · rintro ⟨h2, h3⟩
    exact find_best_single_err (parseMetric_of_unpack_none (unpackComponents_eq_none h2 h3))
  · intro hlen hhead
    obtain ⟨ms, hms⟩ := unpackComponents_two_three hlen
    apply find_best_single_err
    rw [parseMetric_of_unpack hms, if_neg hhead]

theorem claim_C8_witness :
    find_best [("a_b_c_d.pth").data] = .error .malformedName ∧
    find_best [("unknown_1.0.pth").data] = .error .unknownModelType :=
  ⟨(claim_C8 (("a_b_c_d.pth").data)).1 (by decide),
   (claim_C8 (("unknown_1.0.pth").data)).2 (by decide) (by decide)⟩

theorem stripPth_of_not_hasPth (s : List Char) (h : hasPth s = false) :
    stripPth s = s := by
  induction s using stripPth.induct with
  | case1 rest ih => simp [hasPth] at h
  | case2 c rest hne ih =>
    rw [hasPth.eq_2 c rest (fun rest1 hc hr => hne rest1 hc hr)] at h
    rw [stripPth.eq_2 c rest (fun rest1 hc hr => hne rest1 hc hr)]
    rw [ih h]
  | case3 => rfl

/-- C10: extension stripping deletes every ".pth" occurrence from the
basename (also mid-name, before splitting); a name containing no ".pth"
is left unchanged, so for a candidate with a different extension the
extension stays inside the metric string, reaches the float parse, and
makes it fail. -/
theorem claim_C10 :
    (stripPth (("model.pth_best.pth").data) = ("model_best").data) ∧
    (∀ s : List Char, hasPth s = false → stripPth s = s) ∧
    (splitOn '_' (stripPth (basename (("classifier_0.5.txt").data))) =
      [("classifier").data, ("0.5.txt").data]) ∧
    ((splitOn '-' (("0.5.txt").data)).getLastD [] = ("0.5.txt").data) ∧
    (parseFloat? (("0.5.txt").data) = none) ∧
    (find_best [("classifier_0.5.txt").data] = .error .floatParse) :=
  ⟨by decide, stripPth_of_not_hasPth, by decide, by decide, by decide, by decide⟩

theorem claim_C10_witness :
    hasPth (("abc.txt").data) = false ∧
    stripPth (("abc.txt").data) = ("abc.txt").data :=
  ⟨by decide, claim_C10.2.1 (("abc.txt").data) (by decide)⟩
